import Mathlib

/-!
Verification of `smooth-bevy-cameras` (`src/look_transform.rs`).

The source is a small Rust/bevy module: a `LookTransform` component (an eye
position and a target position), a `Smoother` performing exponential smoothing
of look transforms, conversion to a renderable `Transform`, and the system
that keeps the two in sync.  `f32` arithmetic is modelled over the reals;
`Vec3` is a record of three real coordinates.  Mutation of `&mut self`
receivers is modelled by returning the updated value.
-/

noncomputable section

/-- Three-dimensional vector, modelling bevy's `Vec3` over the reals. -/
@[ext]
structure Vec3 where
  x : ℝ
  y : ℝ
  z : ℝ

instance : Add Vec3 := ⟨fun a b => ⟨a.x + b.x, a.y + b.y, a.z + b.z⟩⟩

instance : Sub Vec3 := ⟨fun a b => ⟨a.x - b.x, a.y - b.y, a.z - b.z⟩⟩

instance : Neg Vec3 := ⟨fun a => ⟨-a.x, -a.y, -a.z⟩⟩

/-- Vector-times-scalar, as in `old_lerp_tfm.eye * self.lag_weight`. -/
instance : HMul Vec3 ℝ Vec3 := ⟨fun v s => ⟨v.x * s, v.y * s, v.z * s⟩⟩

/-- Scalar-times-vector, as in `self.radius() * direction`. -/
instance : HMul ℝ Vec3 Vec3 := ⟨fun s v => ⟨s * v.x, s * v.y, s * v.z⟩⟩

@[simp] theorem Vec3.add_x (a b : Vec3) : (a + b).x = a.x + b.x := rfl

@[simp] theorem Vec3.add_y (a b : Vec3) : (a + b).y = a.y + b.y := rfl

@[simp] theorem Vec3.add_z (a b : Vec3) : (a + b).z = a.z + b.z := rfl

@[simp] theorem Vec3.sub_x (a b : Vec3) : (a - b).x = a.x - b.x := rfl

@[simp] theorem Vec3.sub_y (a b : Vec3) : (a - b).y = a.y - b.y := rfl

@[simp] theorem Vec3.sub_z (a b : Vec3) : (a - b).z = a.z - b.z := rfl

@[simp] theorem Vec3.neg_x (a : Vec3) : (-a).x = -a.x := rfl

@[simp] theorem Vec3.neg_y (a : Vec3) : (-a).y = -a.y := rfl

@[simp] theorem Vec3.neg_z (a : Vec3) : (-a).z = -a.z := rfl

@[simp] theorem Vec3.mulR_x (v : Vec3) (s : ℝ) : (v * s).x = v.x * s := rfl

@[simp] theorem Vec3.mulR_y (v : Vec3) (s : ℝ) : (v * s).y = v.y * s := rfl

@[simp] theorem Vec3.mulR_z (v : Vec3) (s : ℝ) : (v * s).z = v.z * s := rfl

@[simp] theorem Vec3.rMul_x (s : ℝ) (v : Vec3) : (s * v).x = s * v.x := rfl

@[simp] theorem Vec3.rMul_y (s : ℝ) (v : Vec3) : (s * v).y = s * v.y := rfl

@[simp] theorem Vec3.rMul_z (s : ℝ) (v : Vec3) : (s * v).z = s * v.z := rfl

/-- Euclidean length of a `Vec3`, modelling `Vec3::length`. -/
def Vec3.length (v : Vec3) : ℝ :=
  Real.sqrt (v.x ^ 2 + v.y ^ 2 + v.z ^ 2)

/-- Normalization, modelling `Vec3::normalize` (division of every coordinate
by the length; the source never calls it on a zero vector). -/
def Vec3.normalize (v : Vec3) : Vec3 :=
  ⟨v.x / v.length, v.y / v.length, v.z / v.length⟩

theorem Vec3.length_nonneg (v : Vec3) : 0 ≤ v.length :=
  Real.sqrt_nonneg _

/-- An eye and the target it is looking at (`struct LookTransform`). -/
@[ext]
structure LookTransform where
  eye : Vec3
  target : Vec3

/-- `LookTransform::radius`. -/
def LookTransform.radius (t : LookTransform) : ℝ :=
  (t.target - t.eye).length

/-- `LookTransform::look_direction`. -/
def LookTransform.look_direction (t : LookTransform) : Vec3 :=
  (t.target - t.eye).normalize

/-- `LookTransform::offset_eye_in_direction`: `self.eye = self.target +
self.radius() * direction`.  Mutation is modelled by returning the updated
transform. -/
def LookTransform.offset_eye_in_direction (t : LookTransform) (direction : Vec3) :
    LookTransform :=
  { t with eye := t.target + t.radius * direction }

/-- `LookTransform::offset_target_in_direction`: `self.target = self.eye +
self.radius() * direction`. -/
def LookTransform.offset_target_in_direction (t : LookTransform) (direction : Vec3) :
    LookTransform :=
  { t with target := t.eye + t.radius * direction }

/-- `struct Smoother`: a lag weight and the optional previously smoothed
transform (`lerp_tfm: Option<LookTransform>`). -/
structure Smoother where
  lag_weight : ℝ
  lerp_tfm : Option LookTransform

/-- `Smoother::new`. -/
def Smoother.new (lag_weight : ℝ) : Smoother :=
  ⟨lag_weight, none⟩

/-- `Smoother::set_lag_weight`. -/
def Smoother.set_lag_weight (s : Smoother) (lag_weight : ℝ) : Smoother :=
  { s with lag_weight := lag_weight }

/-- `Smoother::smooth_transform`: linear interpolation between the previous
smoothed transform (defaulting to `new_tfm` when absent) and `new_tfm`.
Returns the updated smoother together with the returned transform. -/
def Smoother.smooth_transform (s : Smoother) (new_tfm : LookTransform) :
    Smoother × LookTransform :=
  let old_lerp_tfm := s.lerp_tfm.getD new_tfm
  let lead_weight := 1 - s.lag_weight
  let lerp_tfm : LookTransform :=
    { eye := old_lerp_tfm.eye * s.lag_weight + new_tfm.eye * lead_weight
      target := old_lerp_tfm.target * s.lag_weight + new_tfm.target * lead_weight }
  ({ s with lerp_tfm := some lerp_tfm }, lerp_tfm)

/-- Modelled from the spec: bevy's `Transform` (a dependency of this crate,
not part of its sources) is abstracted to its translation together with the
forward direction determined by its rotation — the spec describes the
rotation only through "the orientation that makes the local forward axis
point from `p1` toward `look_at`". -/
@[ext]
structure Transform where
  translation : Vec3
  forward : Vec3

/-- Modelled from the spec: bevy's `Transform::from_translation` places the
translation and leaves the rotation at identity (whose forward axis is the
world minus-z axis). -/
def Transform.from_translation (p : Vec3) : Transform :=
  ⟨p, ⟨0, 0, -1⟩⟩

/-- Modelled from the spec: bevy's `Transform::looking_at(target, up)` keeps
the translation and rotates so that the forward axis points from the
translation toward `target`; the `up` argument only fixes the roll, which the
abstraction does not track. -/
def Transform.looking_at (t : Transform) (target _up : Vec3) : Transform :=
  { t with forward := (target - t.translation).normalize }

/-- `p1_look_at_p2_transform`: translate to `p1`, look toward the point one
unit away from `p1` along the direction of `p2`. -/
def p1_look_at_p2_transform (p1 p2 : Vec3) : Transform :=
  let look_vector := (p2 - p1).normalize
  let look_at := p1 + look_vector
  (Transform.from_translation p1).looking_at look_at ⟨0, 1, 0⟩

/-- `impl From<LookTransform> for Transform`. -/
def Transform.fromLookTransform (t : LookTransform) : Transform :=
  p1_look_at_p2_transform t.eye t.target

/-- One camera entity as queried by `look_transform_system`: a
`LookTransform`, a renderable `Transform`, and an optional `Smoother`. -/
structure CameraEntity where
  look : LookTransform
  scene : Transform
  smoother : Option Smoother

/-- `look_transform_system`: for each queried entity, smooth the look
transform when a smoother is attached, then overwrite the renderable
transform with the conversion of the effective look transform. -/
def look_transform_system (cameras : List CameraEntity) : List CameraEntity :=
  cameras.map fun cam =>
    match cam.smoother with
    | some s =>
      let r := s.smooth_transform cam.look
      { cam with scene := Transform.fromLookTransform r.2, smoother := some r.1 }
    | none => { cam with scene := Transform.fromLookTransform cam.look }

/-- The smoother state after `n` calls of `smooth_transform` with the
constant input `c`. -/
def smoothIter (s : Smoother) (c : LookTransform) : ℕ → Smoother
  | 0 => s
  | n + 1 => ((smoothIter s c n).smooth_transform c).1

/-- The value returned by call number `n + 1` of `smooth_transform` with the
constant input `c`. -/
def smoothVal (s : Smoother) (c : LookTransform) (n : ℕ) : LookTransform :=
  ((smoothIter s c n).smooth_transform c).2

/-- Distance between two look transforms: eye distance plus target
distance. -/
def tfmDist (a b : LookTransform) : ℝ :=
  (a.eye - b.eye).length + (a.target - b.target).length

theorem Vec3.length_rMul (s : ℝ) (v : Vec3) : (s * v).length = |s| * v.length := by
  unfold Vec3.length
  simp only [Vec3.rMul_x, Vec3.rMul_y, Vec3.rMul_z]
  rw [show (s * v.x) ^ 2 + (s * v.y) ^ 2 + (s * v.z) ^ 2
        = s ^ 2 * (v.x ^ 2 + v.y ^ 2 + v.z ^ 2) by ring,
    Real.sqrt_mul (sq_nonneg s), Real.sqrt_sq_eq_abs]

theorem Vec3.length_mulR (v : Vec3) (s : ℝ) : (v * s).length = |s| * v.length := by
  unfold Vec3.length
  simp only [Vec3.mulR_x, Vec3.mulR_y, Vec3.mulR_z]
  rw [show (v.x * s) ^ 2 + (v.y * s) ^ 2 + (v.z * s) ^ 2
        = s ^ 2 * (v.x ^ 2 + v.y ^ 2 + v.z ^ 2) by ring,
    Real.sqrt_mul (sq_nonneg s), Real.sqrt_sq_eq_abs]

theorem Vec3.length_pos_of_ne (a b : Vec3) (h : a ≠ b) : 0 < (b - a).length := by
  unfold Vec3.length
  rw [Real.sqrt_pos]
  simp only [Vec3.sub_x, Vec3.sub_y, Vec3.sub_z]
  by_contra hle
  push_neg at hle
  have hx : (b.x - a.x) ^ 2 = 0 := by
    nlinarith [sq_nonneg (b.x - a.x), sq_nonneg (b.y - a.y), sq_nonneg (b.z - a.z)]
  have hy : (b.y - a.y) ^ 2 = 0 := by
    nlinarith [sq_nonneg (b.x - a.x), sq_nonneg (b.y - a.y), sq_nonneg (b.z - a.z)]
  have hz : (b.z - a.z) ^ 2 = 0 := by
    nlinarith [sq_nonneg (b.x - a.x), sq_nonneg (b.y - a.y), sq_nonneg (b.z - a.z)]
  exact h (by
    ext
    · exact (sub_eq_zero.mp (sq_eq_zero_iff.mp hx)).symm
    · exact (sub_eq_zero.mp (sq_eq_zero_iff.mp hy)).symm
    · exact (sub_eq_zero.mp (sq_eq_zero_iff.mp hz)).symm)

theorem Vec3.length_normalize (v : Vec3) (h : 0 < v.length) :
    v.normalize.length = 1 := by
  have hL : v.length ≠ 0 := ne_of_gt h
  have hS : 0 < v.x ^ 2 + v.y ^ 2 + v.z ^ 2 := Real.sqrt_pos.mp h
  have hsq : v.length ^ 2 = v.x ^ 2 + v.y ^ 2 + v.z ^ 2 := Real.sq_sqrt hS.le
  unfold Vec3.normalize Vec3.length
  show Real.sqrt ((v.x / v.length) ^ 2 + (v.y / v.length) ^ 2
    + (v.z / v.length) ^ 2) = 1
  rw [show (v.x / v.length) ^ 2 + (v.y / v.length) ^ 2 + (v.z / v.length) ^ 2
        = (v.x ^ 2 + v.y ^ 2 + v.z ^ 2) / v.length ^ 2 by field_simp,
    hsq, div_self (ne_of_gt hS), Real.sqrt_one]

theorem Vec3.normalize_of_length_one (v : Vec3) (h : v.length = 1) :
    v.normalize = v := by
  unfold Vec3.normalize
  rw [h]
  ext <;> simp

theorem Smoother.smooth_transform_fst_lag (s : Smoother) (t : LookTransform) :
    (s.smooth_transform t).1.lag_weight = s.lag_weight := rfl

theorem Smoother.smooth_transform_fst_lerp (s : Smoother) (t : LookTransform) :
    (s.smooth_transform t).1.lerp_tfm = some (s.smooth_transform t).2 := rfl

theorem smoothIter_lag (s : Smoother) (c : LookTransform) (n : ℕ) :
    (smoothIter s c n).lag_weight = s.lag_weight := by
  induction n with
  | zero => rfl
  | succ n ih => rw [smoothIter, Smoother.smooth_transform_fst_lag, ih]

theorem smoothIter_succ_lerp (s : Smoother) (c : LookTransform) (n : ℕ) :
    (smoothIter s c (n + 1)).lerp_tfm = some (smoothVal s c n) := rfl

theorem smoothVal_succ (s : Smoother) (c : LookTransform) (n : ℕ) :
    smoothVal s c (n + 1) =
      { eye := (smoothVal s c n).eye * s.lag_weight + c.eye * (1 - s.lag_weight)
        target :=
          (smoothVal s c n).target * s.lag_weight + c.target * (1 - s.lag_weight) } := by
  show ((smoothIter s c (n + 1)).smooth_transform c).2 = _
  unfold Smoother.smooth_transform
  rw [smoothIter_succ_lerp]
  simp only [Option.getD_some, smoothIter_lag]

theorem tfmDist_nonneg (a b : LookTransform) : 0 ≤ tfmDist a b :=
  add_nonneg (Vec3.length_nonneg _) (Vec3.length_nonneg _)

theorem tfmDist_succ (s : Smoother) (c : LookTransform) (h0 : 0 ≤ s.lag_weight)
    (n : ℕ) :
    tfmDist (smoothVal s c (n + 1)) c = s.lag_weight * tfmDist (smoothVal s c n) c := by
  have he : (smoothVal s c (n + 1)).eye - c.eye
      = ((smoothVal s c n).eye - c.eye) * s.lag_weight := by
    rw [smoothVal_succ]
    ext <;> simp <;> ring
  have ht : (smoothVal s c (n + 1)).target - c.target
      = ((smoothVal s c n).target - c.target) * s.lag_weight := by
    rw [smoothVal_succ]
    ext <;> simp <;> ring
  unfold tfmDist
  rw [he, ht, Vec3.length_mulR, Vec3.length_mulR, abs_of_nonneg h0]
  ring

theorem tfmDist_closed (s : Smoother) (c : LookTransform) (h0 : 0 ≤ s.lag_weight)
    (n : ℕ) :
    tfmDist (smoothVal s c n) c = s.lag_weight ^ n * tfmDist (smoothVal s c 0) c := by
  induction n with
  | zero => simp
  | succ n ih => rw [tfmDist_succ s c h0 n, ih, pow_succ]; ring

/-- C1: when the smoother is primed (holds a previous smoothed transform),
`smooth_transform` returns the transform whose eye is
`previous.eye * lag_weight + new_tfm.eye * (1 - lag_weight)` componentwise,
its target computed identically, and stores that result as the new previous
smoothed value. -/
theorem smooth_transform_primed (s : Smoother) (prev new_tfm : LookTransform)
    (h : s.lerp_tfm = some prev) :
    (s.smooth_transform new_tfm).2.eye
        = prev.eye * s.lag_weight + new_tfm.eye * (1 - s.lag_weight)
    ∧ (s.smooth_transform new_tfm).2.target
        = prev.target * s.lag_weight + new_tfm.target * (1 - s.lag_weight)
    ∧ (s.smooth_transform new_tfm).1.lerp_tfm = some (s.smooth_transform new_tfm).2 := by
  refine ⟨?_, ?_, rfl⟩ <;> simp [Smoother.smooth_transform, h]

/-- C1 witness: with `lag_weight = 1/2`, previous eye `(0,0,0)` target
`(0,0,1)`, input eye `(2,0,0)` target `(0,0,3)`, the result is eye `(1,0,0)`
target `(0,0,2)`. -/
theorem smooth_transform_primed_witness :
    (⟨1/2, some ⟨⟨0, 0, 0⟩, ⟨0, 0, 1⟩⟩⟩ : Smoother).lerp_tfm
        = some ⟨⟨0, 0, 0⟩, ⟨0, 0, 1⟩⟩
    ∧ ((⟨1/2, some ⟨⟨0, 0, 0⟩, ⟨0, 0, 1⟩⟩⟩ : Smoother).smooth_transform
          ⟨⟨2, 0, 0⟩, ⟨0, 0, 3⟩⟩).2
        = ⟨⟨1, 0, 0⟩, ⟨0, 0, 2⟩⟩ := by
  refine ⟨rfl, ?_⟩
  obtain ⟨he, ht, -⟩ :=
    smooth_transform_primed ⟨1/2, some ⟨⟨0, 0, 0⟩, ⟨0, 0, 1⟩⟩⟩
      ⟨⟨0, 0, 0⟩, ⟨0, 0, 1⟩⟩ ⟨⟨2, 0, 0⟩, ⟨0, 0, 3⟩⟩ rfl
  refine LookTransform.ext ?_ ?_
  · rw [he]; ext <;> norm_num
  · rw [ht]; ext <;> norm_num

/-- C2: on an uninitialized smoother with lag weight in `[0, 1)`, the first
call to `smooth_transform` returns its input unchanged and stores it,
transitioning the smoother to the primed state. -/
theorem smooth_transform_first_call (s : Smoother) (new_tfm : LookTransform)
    (h : s.lerp_tfm = none) (h0 : 0 ≤ s.lag_weight) (h1 : s.lag_weight < 1) :
    (s.smooth_transform new_tfm).2 = new_tfm
    ∧ (s.smooth_transform new_tfm).1.lerp_tfm = some new_tfm := by
  have hv : (s.smooth_transform new_tfm).2 = new_tfm := by
    ext <;> simp [Smoother.smooth_transform, h] <;> ring
  exact ⟨hv, by rw [Smoother.smooth_transform_fst_lerp, hv]⟩

/-- C2 witness at `lag_weight = 1/2` and a concrete input. -/
theorem smooth_transform_first_call_witness :
    (Smoother.new (1/2)).lerp_tfm = none
    ∧ (0 : ℝ) ≤ (Smoother.new (1/2)).lag_weight
    ∧ (Smoother.new (1/2)).lag_weight < 1
    ∧ ((Smoother.new (1/2)).smooth_transform ⟨⟨1, 2, 3⟩, ⟨4, 5, 6⟩⟩).2
        = ⟨⟨1, 2, 3⟩, ⟨4, 5, 6⟩⟩
    ∧ ((Smoother.new (1/2)).smooth_transform ⟨⟨1, 2, 3⟩, ⟨4, 5, 6⟩⟩).1.lerp_tfm
        = some ⟨⟨1, 2, 3⟩, ⟨4, 5, 6⟩⟩ := by
  have h0 : (0 : ℝ) ≤ (Smoother.new (1/2)).lag_weight := by
    show (0 : ℝ) ≤ 1/2; norm_num
  have h1 : (Smoother.new (1/2)).lag_weight < 1 := by
    show (1/2 : ℝ) < 1; norm_num
  obtain ⟨hv, hs⟩ :=
    smooth_transform_first_call (Smoother.new (1/2)) ⟨⟨1, 2, 3⟩, ⟨4, 5, 6⟩⟩ rfl h0 h1
  exact ⟨rfl, h0, h1, hv, hs⟩

/-- C4: with `lag_weight = 0`, `smooth_transform` returns its input
unchanged, whatever the stored previous smoothed value is. -/
theorem smooth_transform_zero_lag (s : Smoother) (t : LookTransform)
    (h : s.lag_weight = 0) :
    (s.smooth_transform t).2 = t := by
  ext <;> simp [Smoother.smooth_transform, h]

/-- C4 witness: zero lag weight with a primed stored value far from the
input. -/
theorem smooth_transform_zero_lag_witness :
    (⟨0, some ⟨⟨9, 9, 9⟩, ⟨8, 8, 8⟩⟩⟩ : Smoother).lag_weight = 0
    ∧ ((⟨0, some ⟨⟨9, 9, 9⟩, ⟨8, 8, 8⟩⟩⟩ : Smoother).smooth_transform
          ⟨⟨1, 2, 3⟩, ⟨4, 5, 6⟩⟩).2
        = ⟨⟨1, 2, 3⟩, ⟨4, 5, 6⟩⟩ :=
  ⟨rfl, smooth_transform_zero_lag ⟨0, some ⟨⟨9, 9, 9⟩, ⟨8, 8, 8⟩⟩⟩
    ⟨⟨1, 2, 3⟩, ⟨4, 5, 6⟩⟩ rfl⟩

/-- C8: `set_lag_weight` updates the lag weight and leaves the stored
previous smoothed value untouched. -/
theorem set_lag_weight_spec (s : Smoother) (w : ℝ) :
    (s.set_lag_weight w).lag_weight = w
    ∧ (s.set_lag_weight w).lerp_tfm = s.lerp_tfm :=
  ⟨rfl, rfl⟩

/-- C9: `smooth_transform` never changes the lag weight; the updated smoother
differs from the original only in the stored previous smoothed value. -/
theorem smooth_transform_preserves_lag_weight (s : Smoother) (t : LookTransform) :
    (s.smooth_transform t).1.lag_weight = s.lag_weight
    ∧ (s.smooth_transform t).1 = { s with lerp_tfm := some (s.smooth_transform t).2 } :=
  ⟨rfl, rfl⟩

/-- C10: `offset_eye_in_direction` leaves the target unchanged and
`offset_target_in_direction` leaves the eye unchanged. -/
theorem offset_in_direction_frame (t : LookTransform) (d : Vec3) :
    (t.offset_eye_in_direction d).target = t.target
    ∧ (t.offset_target_in_direction d).eye = t.eye :=
  ⟨rfl, rfl⟩

/-- C3 counterexample: with eye `(0,0,0)`, target `(0,0,1)` and the unit
direction `d = (0,0,1)`, after `offset_eye_in_direction d` the normalized
`target - eye` is `(0,0,-1)`, not `d`. -/
theorem offset_eye_in_direction_counterexample :
    Vec3.length ⟨0, 0, 1⟩ = 1
    ∧ (((⟨⟨0, 0, 0⟩, ⟨0, 0, 1⟩⟩ : LookTransform).offset_eye_in_direction
            ⟨0, 0, 1⟩).target
          - ((⟨⟨0, 0, 0⟩, ⟨0, 0, 1⟩⟩ : LookTransform).offset_eye_in_direction
            ⟨0, 0, 1⟩).eye).normalize
        ≠ (⟨0, 0, 1⟩ : Vec3) := by
  have hlen : Vec3.length ⟨0, 0, 1⟩ = 1 := by
    unfold Vec3.length; norm_num
  refine ⟨hlen, ?_⟩
  have hrad : (⟨⟨0, 0, 0⟩, ⟨0, 0, 1⟩⟩ : LookTransform).radius = 1 := by
    unfold LookTransform.radius
    rw [show ((⟨⟨0, 0, 0⟩, ⟨0, 0, 1⟩⟩ : LookTransform).target
          - (⟨⟨0, 0, 0⟩, ⟨0, 0, 1⟩⟩ : LookTransform).eye) = (⟨0, 0, 1⟩ : Vec3) by
        ext <;> norm_num]
    exact hlen
  have hoff : (⟨⟨0, 0, 0⟩, ⟨0, 0, 1⟩⟩ : LookTransform).offset_eye_in_direction
      ⟨0, 0, 1⟩ = ⟨⟨0, 0, 2⟩, ⟨0, 0, 1⟩⟩ := by
    unfold LookTransform.offset_eye_in_direction
    rw [hrad]
    refine LookTransform.ext ?_ rfl
    ext <;> norm_num
  rw [hoff]
  rw [show ((⟨⟨0, 0, 2⟩, ⟨0, 0, 1⟩⟩ : LookTransform).target
        - (⟨⟨0, 0, 2⟩, ⟨0, 0, 1⟩⟩ : LookTransform).eye) = (⟨0, 0, -1⟩ : Vec3) by
      ext <;> norm_num]
  have hlen' : Vec3.length ⟨0, 0, -1⟩ = 1 := by
    unfold Vec3.length; norm_num
  unfold Vec3.normalize
  rw [hlen']
  intro hcontra
  have := congrArg Vec3.z hcontra
  norm_num at this

/-- C3 (amended): for a unit direction `d` and a non-degenerate transform
(eye distinct from target), `offset_eye_in_direction d` preserves `radius()`
and makes the normalized `target - eye` equal `-d` (equivalently, the eye is
relocated to `target + radius * d`, so the eye-to-target direction is the
reverse of `d`). -/
theorem offset_eye_in_direction_spec (t : LookTransform) (d : Vec3)
    (hd : d.length = 1) (hne : t.eye ≠ t.target) :
    (t.offset_eye_in_direction d).radius = t.radius
    ∧ ((t.offset_eye_in_direction d).target
        - (t.offset_eye_in_direction d).eye).normalize = -d := by
  have hr0 : 0 < t.radius := Vec3.length_pos_of_ne t.eye t.target hne
  have hvec : (t.offset_eye_in_direction d).target
      - (t.offset_eye_in_direction d).eye = (-t.radius) * d := by
    unfold LookTransform.offset_eye_in_direction
    ext <;> simp
  have hlen : ((-t.radius) * d).length = t.radius := by
    rw [Vec3.length_rMul, hd, mul_one, abs_neg, abs_of_nonneg hr0.le]
  constructor
  · show ((t.offset_eye_in_direction d).target
        - (t.offset_eye_in_direction d).eye).length = t.radius
    rw [hvec, hlen]
  · rw [hvec]
    unfold Vec3.normalize
    rw [hlen]
    ext <;> simp <;> field_simp <;> ring

/-- C3 witness: eye `(0,0,0)`, target `(0,0,1)`, unit direction `(0,0,1)`:
the radius stays `1` and the new viewing direction is `(0,0,-1)`. -/
theorem offset_eye_in_direction_spec_witness :
    Vec3.length ⟨0, 0, 1⟩ = 1
    ∧ (⟨⟨0, 0, 0⟩, ⟨0, 0, 1⟩⟩ : LookTransform).eye
        ≠ (⟨⟨0, 0, 0⟩, ⟨0, 0, 1⟩⟩ : LookTransform).target
    ∧ ((⟨⟨0, 0, 0⟩, ⟨0, 0, 1⟩⟩ : LookTransform).offset_eye_in_direction
          ⟨0, 0, 1⟩).radius = (⟨⟨0, 0, 0⟩, ⟨0, 0, 1⟩⟩ : LookTransform).radius
    ∧ (((⟨⟨0, 0, 0⟩, ⟨0, 0, 1⟩⟩ : LookTransform).offset_eye_in_direction
            ⟨0, 0, 1⟩).target
        - ((⟨⟨0, 0, 0⟩, ⟨0, 0, 1⟩⟩ : LookTransform).offset_eye_in_direction
            ⟨0, 0, 1⟩).eye).normalize = -(⟨0, 0, 1⟩ : Vec3) := by
  have hd : Vec3.length ⟨0, 0, 1⟩ = 1 := by
    unfold Vec3.length; norm_num
  have hne : (⟨⟨0, 0, 0⟩, ⟨0, 0, 1⟩⟩ : LookTransform).eye
      ≠ (⟨⟨0, 0, 0⟩, ⟨0, 0, 1⟩⟩ : LookTransform).target := by
    intro h
    have := congrArg Vec3.z h
    norm_num at this
  obtain ⟨h1, h2⟩ :=
    offset_eye_in_direction_spec ⟨⟨0, 0, 0⟩, ⟨0, 0, 1⟩⟩ ⟨0, 0, 1⟩ hd hne
  exact ⟨hd, hne, h1, h2⟩

/-- C5: for a lag weight in `[0, 1)` and a constant input `c`, the distance
of the successive smoothed values to `c` is monotonically non-increasing and
tends to `0` (the values converge toward `c`). -/
theorem smooth_transform_constant_converges (s : Smoother) (c : LookTransform)
    (h0 : 0 ≤ s.lag_weight) (h1 : s.lag_weight < 1) :
    Antitone (fun n => tfmDist (smoothVal s c n) c)
    ∧ Filter.Tendsto (fun n => tfmDist (smoothVal s c n) c) Filter.atTop (nhds 0) := by
  constructor
  · refine antitone_nat_of_succ_le fun n => ?_
    rw [tfmDist_succ s c h0 n]
    exact mul_le_of_le_one_left (tfmDist_nonneg _ _) h1.le
  · have hfun : (fun n => tfmDist (smoothVal s c n) c)
        = fun n => s.lag_weight ^ n * tfmDist (smoothVal s c 0) c := by
      funext n
      exact tfmDist_closed s c h0 n
    rw [hfun]
    have hpow := (tendsto_pow_atTop_nhds_zero_of_lt_one h0 h1).mul_const
      (tfmDist (smoothVal s c 0) c)
    simpa using hpow

/-- C5 witness at `lag_weight = 9/10` with a concrete constant input. -/
theorem smooth_transform_constant_converges_witness :
    (0 : ℝ) ≤ (Smoother.new (9/10)).lag_weight
    ∧ (Smoother.new (9/10)).lag_weight < 1
    ∧ Antitone (fun n =>
        tfmDist (smoothVal (Smoother.new (9/10)) ⟨⟨1, 2, 3⟩, ⟨4, 5, 6⟩⟩ n)
          ⟨⟨1, 2, 3⟩, ⟨4, 5, 6⟩⟩)
    ∧ Filter.Tendsto (fun n =>
        tfmDist (smoothVal (Smoother.new (9/10)) ⟨⟨1, 2, 3⟩, ⟨4, 5, 6⟩⟩ n)
          ⟨⟨1, 2, 3⟩, ⟨4, 5, 6⟩⟩) Filter.atTop (nhds 0) := by
  have h0 : (0 : ℝ) ≤ (Smoother.new (9/10)).lag_weight := by
    show (0 : ℝ) ≤ 9/10; norm_num
  have h1 : (Smoother.new (9/10)).lag_weight < 1 := by
    show (9/10 : ℝ) < 1; norm_num
  obtain ⟨ha, ht⟩ :=
    smooth_transform_constant_converges (Smoother.new (9/10)) ⟨⟨1, 2, 3⟩, ⟨4, 5, 6⟩⟩ h0 h1
  exact ⟨h0, h1, ha, ht⟩

/-- C6: converting a `LookTransform` with distinct eye and target to a
renderable transform yields translation equal to the eye and forward
direction equal to the normalized `target - eye` (a unit vector independent
of the original distance). -/
theorem from_look_transform_spec (t : LookTransform) (hne : t.eye ≠ t.target) :
    (Transform.fromLookTransform t).translation = t.eye
    ∧ (Transform.fromLookTransform t).forward = (t.target - t.eye).normalize := by
  have hpos : 0 < (t.target - t.eye).length := Vec3.length_pos_of_ne _ _ hne
  refine ⟨rfl, ?_⟩
  show ((t.eye + (t.target - t.eye).normalize) - t.eye).normalize
      = (t.target - t.eye).normalize
  have hx : (t.eye + (t.target - t.eye).normalize) - t.eye
      = (t.target - t.eye).normalize := by
    ext <;> simp
  rw [hx]
  exact Vec3.normalize_of_length_one _ (Vec3.length_normalize _ hpos)

/-- C6 witness: eye `(0,0,0)`, target `(0,0,5)` gives translation `(0,0,0)`
and forward `(0,0,1)`. -/
theorem from_look_transform_spec_witness :
    (⟨⟨0, 0, 0⟩, ⟨0, 0, 5⟩⟩ : LookTransform).eye
        ≠ (⟨⟨0, 0, 0⟩, ⟨0, 0, 5⟩⟩ : LookTransform).target
    ∧ (Transform.fromLookTransform ⟨⟨0, 0, 0⟩, ⟨0, 0, 5⟩⟩).translation = ⟨0, 0, 0⟩
    ∧ (Transform.fromLookTransform ⟨⟨0, 0, 0⟩, ⟨0, 0, 5⟩⟩).forward = ⟨0, 0, 1⟩ := by
  have hne : (⟨⟨0, 0, 0⟩, ⟨0, 0, 5⟩⟩ : LookTransform).eye
      ≠ (⟨⟨0, 0, 0⟩, ⟨0, 0, 5⟩⟩ : LookTransform).target := by
    intro h
    have := congrArg Vec3.z h
    norm_num at this
  obtain ⟨h1, h2⟩ := from_look_transform_spec ⟨⟨0, 0, 0⟩, ⟨0, 0, 5⟩⟩ hne
  refine ⟨hne, h1, ?_⟩
  rw [h2]
  rw [show ((⟨⟨0, 0, 0⟩, ⟨0, 0, 5⟩⟩ : LookTransform).target
        - (⟨⟨0, 0, 0⟩, ⟨0, 0, 5⟩⟩ : LookTransform).eye) = (⟨0, 0, 5⟩ : Vec3) by
      ext <;> norm_num]
  have hlen : Vec3.length ⟨0, 0, 5⟩ = 5 := by
    unfold Vec3.length
    rw [show (0 : ℝ) ^ 2 + 0 ^ 2 + 5 ^ 2 = 5 ^ 2 by norm_num,
      Real.sqrt_sq (by norm_num : (0 : ℝ) ≤ 5)]
  unfold Vec3.normalize
  rw [hlen]
  ext <;> norm_num

/-- C7: one run of `look_transform_system` overwrites every entity's
renderable transform with the conversion of the effective look transform —
the smoothed transform when a smoother is attached, the raw look transform
otherwise — and leaves the look transforms themselves unchanged. -/
theorem look_transform_system_spec (cameras : List CameraEntity) :
    (look_transform_system cameras).map CameraEntity.scene
        = cameras.map (fun cam =>
            Transform.fromLookTransform
              (match cam.smoother with
               | some s => (s.smooth_transform cam.look).2
               | none => cam.look))
    ∧ (look_transform_system cameras).map CameraEntity.look
        = cameras.map CameraEntity.look := by
  constructor
  · unfold look_transform_system
    rw [List.map_map]
    refine List.map_congr_left fun cam _ => ?_
    cases h : cam.smoother <;> simp [h]
  · unfold look_transform_system
    rw [List.map_map]
    refine List.map_congr_left fun cam _ => ?_
    cases h : cam.smoother <;> simp [h]
